import Mathlib

/-!
Verification of the ioslib core: the detection orchestrator with its result
merger and cache (src/src/index.js, `detect` and its inner `mix`), and the
device / certificate / provisioning-profile combination resolver
(`findValidDeviceCertProfileCombos`).

JavaScript values handled by the merger are embedded as the inductive type
`JVal`; a JavaScript object is an association list of string keys in insertion
order.  Because `mix(src, dest)` mutates `dest` in place, the merger is
embedded over a small store (object identifiers mapped to objects), so that
statements about mutation and aliasing are expressible.  The six subsystem
detectors, `provisioning.find`, `device.detect` and `certs.detect` live in
lib/ modules outside the core and are treated as opaque collaborators: their
results are parameters of the embedded functions.
-/

namespace Ioslib

/-- A JavaScript value as seen by the merger: `undefined`, `null`, booleans,
numbers, strings, arrays and plain objects (association lists of fields in
insertion order). -/
inductive JVal where
  | undefv
  | nullv
  | boolv (b : Bool)
  | num (n : Int)
  | str (s : String)
  | arr (xs : List JVal)
  | obj (fields : List (String × JVal))

/-- A JavaScript object: keys with values, in insertion order. -/
abbrev JObj := List (String × JVal)

/-- JavaScript truthiness of an embedded value: `undefined`, `null`, `false`,
`0` and the empty string are falsy; arrays and objects are always truthy. -/
def isTruthy : JVal → Bool
  | .undefv => false
  | .nullv => false
  | .boolv b => b
  | .num n => decide (n ≠ 0)
  | .str s => decide (s ≠ "")
  | .arr _ => true
  | .obj _ => true

/-- `Array.isArray`. -/
def isArrV : JVal → Bool
  | .arr _ => true
  | _ => false

/-- First binding of a key in an object, if any. -/
def lookupKey : JObj → String → Option JVal
  | [], _ => none
  | (k, v) :: rest, key => if k = key then some v else lookupKey rest key

/-- Property read `o[key]`: `undefined` when the key is absent. -/
def getKey (o : JObj) (key : String) : JVal :=
  (lookupKey o key).getD .undefv

/-- Property write `o[key] = v`: replace the first binding in place, or append
a new binding at the end (JavaScript insertion order). -/
def setKey : JObj → String → JVal → JObj
  | [], key, v => [(key, v)]
  | (k, w) :: rest, key, v =>
    if k = key then (k, v) :: rest else (k, w) :: setKey rest key v

/-- `Object.keys`, in insertion order. -/
def objKeys (o : JObj) : List String := o.map Prod.fst

/-- Property read on an arbitrary value, `v[key]`: field lookup on objects,
`undefined` otherwise. -/
def objGet (v : JVal) (key : String) : JVal :=
  match v with
  | .obj fs => getKey fs key
  | _ => .undefv

/-- A store of mutable top-level objects, indexed by object identifier.  The
merger takes its source and destination as identifiers so that aliased calls
such as `mix(x, x)` are expressible. -/
def Store := Nat → JObj

/-- Overwrite one object of the store. -/
def updStore (st : Store) (r : Nat) (o : JObj) : Store :=
  fun n => if n = r then o else st n

/-- One write of the inner property-copy loop of `mix`:
`dest[name][key] = src[name][key]`.  All reads are live reads from the store.
Writing a property of a primitive raises a `TypeError` (strict mode), which
aborts the merge; writing a named property of an array succeeds in JavaScript
but stores it where no merger path ever reads it, so the array is unchanged in
this model. -/
def mixPropStep (rs rd : Nat) (name : String) (acc : Store × Option String)
    (key : String) : Store × Option String :=
  match acc with
  | (st, some e) => (st, some e)
  | (st, none) =>
    let v := objGet (getKey (st rs) name) key
    match getKey (st rd) name with
    | .obj fs => (updStore st rd (setKey (st rd) name (.obj (setKey fs key v))), none)
    | .arr _ => (st, none)
    | _ => (st, some "TypeError")

/-- Processing of one key `name` of the source by `mix` (the body of the
`Object.keys(src).forEach` loop):
arrays are concatenated onto an existing destination array, otherwise assigned;
non-null objects are shallow-copied one level deep into `dest[name]`, which is
first reset to `{}` when falsy; every other value overwrites `dest[name]`. -/
def mixKeyStep (rs rd : Nat) (acc : Store × Option String) (name : String) :
    Store × Option String :=
  match acc with
  | (st, some e) => (st, some e)
  | (st, none) =>
    match getKey (st rs) name with
    | .arr xs =>
      let newv : JVal :=
        match getKey (st rd) name with
        | .arr ys => .arr (ys ++ xs)
        | _ => .arr xs
      (updStore st rd (setKey (st rd) name newv), none)
    | .obj fs =>
      let st1 :=
        if isTruthy (getKey (st rd) name) then st
        else updStore st rd (setKey (st rd) name (.obj []))
      (fs.map Prod.fst).foldl (mixPropStep rs rd name) (st1, none)
    | s => (updStore st rd (setKey (st rd) name s), none)

/-- `mix(src, dest)` over the store: fold the key-processing step over the
snapshot `Object.keys(src)`.  Returns the final store and the error, if the
merge raised one. -/
def mixRun (rs rd : Nat) (st : Store) : Store × Option String :=
  (objKeys (st rs)).foldl (mixKeyStep rs rd) (st, none)

/-- `mix(src, dest)` on two distinct objects: run the store semantics on a
fresh two-object store and project the destination. -/
def mix2 (src dest : JObj) : JObj × Option String :=
  let st : Store := fun n => if n = 0 then src else dest
  let p := mixRun 0 1 st
  (p.1 1, p.2)

/-- Pure form of the inner property-copy loop on the destination object, for a
fixed source value `s` and destination key `name` (used to characterize
`mixRun` when source and destination are distinct objects). -/
def copyProps (s : JVal) (name : String) : JObj → List String → JObj × Option String
  | d, [] => (d, none)
  | d, key :: rest =>
    match getKey d name with
    | .obj gs => copyProps s name (setKey d name (.obj (setKey gs key (objGet s key)))) rest
    | .arr _ => copyProps s name d rest
    | _ => (d, some "TypeError")

/-- Pure form of `mix` over a list of source keys, for a destination object
distinct from the source. -/
def mixP (src : JObj) : JObj → List String → JObj × Option String
  | d, [] => (d, none)
  | d, name :: rest =>
    match getKey src name with
    | .arr xs =>
      let newv : JVal :=
        match getKey d name with
        | .arr ys => .arr (ys ++ xs)
        | _ => .arr xs
      mixP src (setKey d name newv) rest
    | .obj fs =>
      let d1 := if isTruthy (getKey d name) then d else setKey d name (.obj [])
      match copyProps (.obj fs) name d1 (fs.map Prod.fst) with
      | (d2, none) => mixP src d2 rest
      | (d2, some e) => (d2, some e)
    | s => mixP src (setKey d name s) rest

/-- `typeof v === "object" && v !== null` for a non-array value. -/
def isObjV : JVal → Bool
  | .obj _ => true
  | _ => false

/-- The one-level copy of the merger's object branch, as a pure map update:
each key of the source object fields `fs` is written into `gs` in order, with
the value the live read `src[name][key]` yields. -/
def copyOnto (fs : List (String × JVal)) (gs : JObj) : JObj :=
  (fs.map Prod.fst).foldl (fun g k => setKey g k (objGet (.obj fs) k)) gs

/-- The value held by one destination key after the merger processed it, as a
function of the source value for that key and the previous destination value
`dv`: arrays concatenate onto arrays and otherwise replace; object fields are
copied one level deep into an existing object, into a fresh object when `dv`
is falsy, and invisibly onto arrays and truthy primitives; anything else
overwrites. -/
def keyOutcome (src : JObj) (dv : JVal) (name : String) : JVal :=
  match getKey src name with
  | .arr xs =>
    match dv with
    | .arr ys => .arr (ys ++ xs)
    | _ => .arr xs
  | .obj fs =>
    match dv with
    | .obj gs => .obj (copyOnto fs gs)
    | .arr ys => .arr ys
    | v => if isTruthy v then v else .obj (copyOnto fs [])
  | v => v

/-- A destination value `w` at key `k` that one more merger pass over `k`
leaves unchanged: for a scalar source value, `w` is that value; for an object
source value, `w` is an object already holding every source field, an array,
or a truthy primitive that survives only because the source object is empty.
Array source values are never stable (re-merging concatenates again). -/
def StableAt (src : JObj) (k : String) (w : JVal) : Prop :=
  match getKey src k with
  | .arr _ => False
  | .obj fs =>
    (∃ hs, w = .obj hs ∧ ∀ kk ∈ fs.map Prod.fst, lookupKey hs kk = some (objGet (.obj fs) kk))
    ∨ (∃ ys, w = .arr ys)
    ∨ (isTruthy w = true ∧ isObjV w = false ∧ isArrV w = false ∧ fs = [])
  | v => w = v

/-! ## The detection orchestrator -/

/-- The merged report and the first detector error of one uncached detection
pass, given the outcomes of the parallel subsystem detectors in task order
(certificates, devices, environment, provisioning profiles, simulators,
Xcode installs).  Each successful detector result is merged into the shared
report, which starts as `{ detectVersion: "4.0", issues: [] }`; a failing
detector skips the merge and records its error (`err || mix(result, results);
done(err)`).  The third component records whether some merge itself raised a
`TypeError` (which in the source would be thrown, not reported). -/
def detectPass (outcomes : List (Except String JObj)) : JObj × Option String × Bool :=
  outcomes.foldl
    (fun acc oc =>
      match oc with
      | .error e => (acc.1, acc.2.1 <|> some e, acc.2.2)
      | .ok r =>
        let p := mix2 r acc.1
        (p.1, acc.2.1, acc.2.2 || p.2.isSome))
    ([("detectVersion", .str "4.0"), ("issues", .arr [])], none, false)

/-- The orchestrator `detect`: given the process-wide cache, the
`options.bypassCache` flag and the detector outcomes, return the new cache,
the callback outcome and whether the detectors were invoked.  A truthy cache
together with an unset bypass flag short-circuits to the cached report; an
uncached pass runs all detectors, fails with the first detector error leaving
the cache untouched, and on success stores the assembled report in the cache
before returning it. -/
def detect (cache : Option JObj) (bypassCache : Bool)
    (outcomes : List (Except String JObj)) :
    Option JObj × Except String JObj × Bool :=
  match cache, bypassCache with
  | some c, false => (some c, .ok c, false)
  | _, _ =>
    let p := detectPass outcomes
    match p.2.1 with
    | some e => (cache, .error e, true)
    | none => (some p.1, .ok p.1, true)

/-! ## The combination resolver -/

/-- A connected iOS device, as reported by `device.detect`. -/
structure Device where
  udid : String
deriving DecidableEq

/-- A signing certificate, as reported by `certs.detect`. -/
structure Cert where
  name : String
  pem : String
deriving DecidableEq

/-- A provisioning profile, as returned by `provisioning.find`.  `devices` is
`none` when the profile carries no device list (`profile.devices` falsy). -/
structure Profile where
  uuid : String
  devices : Option (List String)
  certs : List String
deriving DecidableEq

/-- Character-list test that `cs` leads with the pattern `pat`. -/
def charsLeadWith : List Char → List Char → Bool
  | [], _ => true
  | _ :: _, [] => false
  | c :: pat, d :: cs => c = d && charsLeadWith pat cs

/-- `s.indexOf(pat) === 0`: the string `s` starts with `pat`. -/
def strStartsWith (s pat : String) : Bool :=
  charsLeadWith pat.data s.data

/-- Strip the PEM header line: `pem.replace(/^-----BEGIN CERTIFICATE-----\n/, "")`
removes the header only when it sits at the very start, including its
newline. -/
def stripPemHeader (s : String) : String :=
  let h := "-----BEGIN CERTIFICATE-----\n"
  if strStartsWith s h then s.drop h.length else s

/-- The candidate fingerprint of a certificate: the first 60 characters of the
PEM body after stripping the header line
(`cert.pem.replace(...).substring(0, 60)`). -/
def pemPfx60 (c : Cert) : String :=
  (stripPemHeader c.pem).take 60

/-- `profile.devices && profile.devices.indexOf(device.udid) !== -1`. -/
def authorized (p : Profile) (d : Device) : Bool :=
  match p.devices with
  | some ds => ds.contains d.udid
  | none => false

/-- One emitted combo object,
`{ ppUUID: profile.uuid, certName: cert.name, deviceUDID: device.udid }`,
embedded as its key-value list so that the property names are part of the
model. -/
def mkCombo (p : Profile) (c : Cert) (d : Device) : List (String × String) :=
  [("ppUUID", p.uuid), ("certName", c.name), ("deviceUDID", d.udid)]

/-- The nested matching loops of the resolver: for each profile, for each
detected device authorized by the profile, for each certificate, for each
fingerprint embedded in the profile, push a combo when the embedded
fingerprint starts with the candidate fingerprint. -/
def findCombos (devices : List Device) (certs : List Cert) (profiles : List Profile) :
    List (List (String × String)) :=
  profiles.foldl
    (fun combos profile =>
      devices.foldl
        (fun combos device =>
          if authorized profile device then
            certs.foldl
              (fun combos cert =>
                let pfx := pemPfx60 cert
                profile.certs.foldl
                  (fun combos pcert =>
                    if strStartsWith pcert pfx then combos ++ [mkCombo profile cert device]
                    else combos)
                  combos)
              combos
          else combos)
        combos)
    []

/-- Flatten `certResults.certs.keychains` (keychain name, then type name, then
certificate list) into one certificate list, in iteration order. -/
def flattenCerts (keychains : List (String × List (String × List Cert))) : List Cert :=
  keychains.foldl (fun acc kc => kc.2.foldl (fun acc2 ty => acc2 ++ ty.2) acc) []

/-- The combination resolver after its detection calls: given the detected
devices, the keychain certificate grouping and the profiles returned by
`provisioning.find`, fail on an empty device list, an empty flattened
certificate list or an empty profile list, in that order, and otherwise
return the matched combos. -/
def findValidDeviceCertProfileCombos (devices : List Device)
    (keychains : List (String × List (String × List Cert)))
    (profiles : List Profile) : Except String (List (List (String × String))) :=
  if devices.length = 0 then .error "No iOS devices connected"
  else
    let certs := flattenCerts keychains
    if certs.length = 0 then .error "No iOS certificates"
    else if profiles.length = 0 then .error "No provisioning profiles found"
    else .ok (findCombos devices certs profiles)

/-- The same nested iteration written as flat maps: profiles outermost, then
devices, then certificates, then the embedded fingerprints innermost, with no
deduplication.  This is the emission order stated by the specification. -/
def findCombosOrdered (devices : List Device) (certs : List Cert)
    (profiles : List Profile) : List (List (String × String)) :=
  profiles.flatMap fun profile =>
    devices.flatMap fun device =>
      if authorized profile device then
        certs.flatMap fun cert =>
          profile.certs.flatMap fun pcert =>
            if strStartsWith pcert (pemPfx60 cert) then [mkCombo profile cert device]
            else []
      else []

/-! ## Argument normalization of the resolver entry point -/

/-- A JavaScript argument as classified by the entry-point normalization:
functions carry an identity so that "the callback is the first argument" is
expressible, and `noopFunc` is the replacement no-op callback. -/
inductive JsArg where
  | undefv
  | nullv
  | boolv (b : Bool)
  | num (n : Int)
  | str (s : String)
  | objv (keys : List String)
  | func (id : Nat)
  | noopFunc
deriving DecidableEq

/-- `typeof a === "function"`. -/
def JsArg.isFunction : JsArg → Bool
  | .func _ => true
  | .noopFunc => true
  | _ => false

/-- JavaScript falsiness of an argument. -/
def JsArg.isFalsy : JsArg → Bool
  | .undefv => true
  | .nullv => true
  | .boolv b => !b
  | .num n => decide (n = 0)
  | .str s => decide (s = "")
  | _ => false

/-- The argument normalization at the top of `findValidDeviceCertProfileCombos`:
a function first argument becomes the callback and `options` becomes `{}`;
a falsy `options` becomes `{}`; a non-function callback is replaced by a
no-op. -/
def normalizeArgs (options callback : JsArg) : JsArg × JsArg :=
  let p :=
    if options.isFunction then (JsArg.objv [], options)
    else if options.isFalsy then (JsArg.objv [], callback)
    else (options, callback)
  (p.1, if p.2.isFunction then p.2 else JsArg.noopFunc)

/-! ## Association-list and store lemmas -/

theorem lookup_setKey_self (d : JObj) (k : String) (v : JVal) :
    lookupKey (setKey d k v) k = some v := by
  induction d with
  | nil => simp [setKey, lookupKey]
  | cons kv rest ih =>
    obtain ⟨k1, v1⟩ := kv
    by_cases h : k1 = k <;> simp [setKey, lookupKey, h, ih]

theorem lookup_setKey_ne (d : JObj) (k k2 : String) (v : JVal) (h : k2 ≠ k) :
    lookupKey (setKey d k v) k2 = lookupKey d k2 := by
  induction d with
  | nil => simp [setKey, lookupKey, Ne.symm h]
  | cons kv rest ih =>
    obtain ⟨k1, v1⟩ := kv
    by_cases h1 : k1 = k
    · subst h1
      simp [setKey, lookupKey, Ne.symm h]
    · simp [setKey, lookupKey, h1, ih]

theorem getKey_setKey_self (d : JObj) (k : String) (v : JVal) :
    getKey (setKey d k v) k = v := by
  simp [getKey, lookup_setKey_self]

theorem getKey_setKey_ne (d : JObj) (k k2 : String) (v : JVal) (h : k2 ≠ k) :
    getKey (setKey d k v) k2 = getKey d k2 := by
  simp [getKey, lookup_setKey_ne d k k2 v h]

theorem setKey_self (d : JObj) (k : String) (v : JVal)
    (h : lookupKey d k = some v) : setKey d k v = d := by
  induction d with
  | nil => simp [lookupKey] at h
  | cons kv rest ih =>
    obtain ⟨k1, v1⟩ := kv
    by_cases h1 : k1 = k
    · subst h1
      simp [lookupKey] at h
      simp [setKey, h]
    · simp [lookupKey, h1] at h
      simp [setKey, h1, ih h]

theorem updStore_same (st : Store) (r : Nat) (o : JObj) : updStore st r o r = o := by
  simp [updStore]

theorem updStore_ne (st : Store) (r n : Nat) (o : JObj) (h : n ≠ r) :
    updStore st r o n = st n := by
  simp [updStore, h]

theorem updStore_self (st : Store) (r : Nat) : updStore st r (st r) = st := by
  funext n
  by_cases h : n = r <;> simp [updStore, h]

theorem updStore_updStore (st : Store) (r : Nat) (o o2 : JObj) :
    updStore (updStore st r o) r o2 = updStore st r o2 := by
  funext n
  by_cases h : n = r <;> simp [updStore, h]

/-! ## The merger never writes outside the destination object -/

theorem foldl_mixPropStep_error (rs rd : Nat) (name : String) (keys : List String)
    (st : Store) (e : String) :
    keys.foldl (mixPropStep rs rd name) (st, some e) = (st, some e) := by
  induction keys with
  | nil => rfl
  | cons key rest ih => simpa [mixPropStep] using ih

theorem foldl_mixKeyStep_error (rs rd : Nat) (keys : List String)
    (st : Store) (e : String) :
    keys.foldl (mixKeyStep rs rd) (st, some e) = (st, some e) := by
  induction keys with
  | nil => rfl
  | cons key rest ih => simpa [mixKeyStep] using ih

theorem mixPropStep_fst (rs rd : Nat) (name : String) (acc : Store × Option String)
    (key : String) (n : Nat) (h : n ≠ rd) :
    (mixPropStep rs rd name acc key).1 n = acc.1 n := by
  obtain ⟨st, e⟩ := acc
  match e with
  | some e0 => rfl
  | none =>
    simp only [mixPropStep]
    match getKey (st rd) name with
    | .obj fs => simp [updStore_ne _ _ _ _ h]
    | .arr xs => rfl
    | .undefv | .nullv | .boolv _ | .num _ | .str _ => rfl

theorem foldl_mixPropStep_fst (rs rd : Nat) (name : String) (keys : List String)
    (acc : Store × Option String) (n : Nat) (h : n ≠ rd) :
    (keys.foldl (mixPropStep rs rd name) acc).1 n = acc.1 n := by
  induction keys generalizing acc with
  | nil => rfl
  | cons key rest ih =>
    simpa [List.foldl_cons, mixPropStep_fst rs rd name acc key n h] using
      (ih (mixPropStep rs rd name acc key)).trans
        (mixPropStep_fst rs rd name acc key n h)

theorem mixKeyStep_fst (rs rd : Nat) (acc : Store × Option String)
    (name : String) (n : Nat) (h : n ≠ rd) :
    (mixKeyStep rs rd acc name).1 n = acc.1 n := by
  obtain ⟨st, e⟩ := acc
  match e with
  | some e0 => rfl
  | none =>
    simp only [mixKeyStep]
    match getKey (st rs) name with
    | .arr xs => simp [updStore_ne _ _ _ _ h]
    | .obj fs =>
      refine (foldl_mixPropStep_fst rs rd name _ _ n h).trans ?_
      by_cases ht : isTruthy (getKey (st rd) name) <;>
        simp [ht, updStore_ne _ _ _ _ h]
    | .undefv | .nullv | .boolv _ | .num _ | .str _ => simp [updStore_ne _ _ _ _ h]

theorem foldl_mixKeyStep_fst (rs rd : Nat) (keys : List String)
    (acc : Store × Option String) (n : Nat) (h : n ≠ rd) :
    (keys.foldl (mixKeyStep rs rd) acc).1 n = acc.1 n := by
  induction keys generalizing acc with
  | nil => rfl
  | cons key rest ih =>
    exact (ih (mixKeyStep rs rd acc key)).trans (mixKeyStep_fst rs rd acc key n h)

/-- `mix(src, dest)` writes only the destination object: every other object of
the store, the source included when distinct, is untouched. -/
theorem mixRun_fst (rs rd : Nat) (st : Store) (n : Nat) (h : n ≠ rd) :
    (mixRun rs rd st).1 n = st n :=
  foldl_mixKeyStep_fst rs rd (objKeys (st rs)) (st, none) n h

/-! ## Pure characterization of the merger on distinct objects -/

theorem foldl_mixPropStep_eq (rs rd : Nat) (h : rs ≠ rd) (name : String)
    (keys : List String) (st : Store) :
    keys.foldl (mixPropStep rs rd name) (st, none) =
      (updStore st rd (copyProps (getKey (st rs) name) name (st rd) keys).1,
       (copyProps (getKey (st rs) name) name (st rd) keys).2) := by
  induction keys generalizing st with
  | nil => simp [copyProps, updStore_self]
  | cons key rest ih =>
    rw [List.foldl_cons]
    cases hv : getKey (st rd) name with
    | obj gs =>
      have hstep : mixPropStep rs rd name (st, none) key =
          (updStore st rd
            (setKey (st rd) name
              (.obj (setKey gs key (objGet (getKey (st rs) name) key)))), none) := by
        simp [mixPropStep, hv]
      rw [hstep, ih]
      rw [updStore_ne _ rd rs _ h, updStore_same, updStore_updStore]
      simp [copyProps, hv]
    | arr xs =>
      have hstep : mixPropStep rs rd name (st, none) key = (st, none) := by
        simp [mixPropStep, hv]
      rw [hstep, ih]
      simp [copyProps, hv]
    | undefv =>
      have hstep : mixPropStep rs rd name (st, none) key = (st, some "TypeError") := by
        simp [mixPropStep, hv]
      rw [hstep, foldl_mixPropStep_error]
      simp [copyProps, hv, updStore_self]
    | nullv =>
      have hstep : mixPropStep rs rd name (st, none) key = (st, some "TypeError") := by
        simp [mixPropStep, hv]
      rw [hstep, foldl_mixPropStep_error]
      simp [copyProps, hv, updStore_self]
    | boolv b =>
      have hstep : mixPropStep rs rd name (st, none) key = (st, some "TypeError") := by
        simp [mixPropStep, hv]
      rw [hstep, foldl_mixPropStep_error]
      simp [copyProps, hv, updStore_self]
    | num n =>
      have hstep : mixPropStep rs rd name (st, none) key = (st, some "TypeError") := by
        simp [mixPropStep, hv]
      rw [hstep, foldl_mixPropStep_error]
      simp [copyProps, hv, updStore_self]
    | str s =>
      have hstep : mixPropStep rs rd name (st, none) key = (st, some "TypeError") := by
        simp [mixPropStep, hv]
      rw [hstep, foldl_mixPropStep_error]
      simp [copyProps, hv, updStore_self]

theorem foldl_mixKeyStep_eq (rs rd : Nat) (h : rs ≠ rd)
    (keys : List String) (st : Store) :
    keys.foldl (mixKeyStep rs rd) (st, none) =
      (updStore st rd (mixP (st rs) (st rd) keys).1,
       (mixP (st rs) (st rd) keys).2) := by
  induction keys generalizing st with
  | nil => simp [mixP, updStore_self]
  | cons name rest ih =>
    rw [List.foldl_cons]
    cases hv : getKey (st rs) name with
    | arr xs =>
      have hstep : mixKeyStep rs rd (st, none) name =
          (updStore st rd
            (setKey (st rd) name
              (match getKey (st rd) name with
               | .arr ys => JVal.arr (ys ++ xs)
               | _ => JVal.arr xs)), none) := by
        simp [mixKeyStep, hv]
      rw [hstep, ih]
      rw [updStore_ne _ rd rs _ h, updStore_same, updStore_updStore]
      simp [mixP, hv]
    | obj fs =>
      have hstep : mixKeyStep rs rd (st, none) name =
          (fs.map Prod.fst).foldl (mixPropStep rs rd name)
            (if isTruthy (getKey (st rd) name) then st
             else updStore st rd (setKey (st rd) name (.obj [])), none) := by
        simp [mixKeyStep, hv]
      rw [hstep]
      set st1 := if isTruthy (getKey (st rd) name) then st
        else updStore st rd (setKey (st rd) name (.obj [])) with hst1
      have hrs : st1 rs = st rs := by
        by_cases ht : isTruthy (getKey (st rd) name) <;>
          simp [hst1, ht, updStore_ne _ rd rs _ h]
      have hrd : st1 rd = if isTruthy (getKey (st rd) name) then st rd
          else setKey (st rd) name (.obj []) := by
        by_cases ht : isTruthy (getKey (st rd) name) <;>
          simp [hst1, ht, updStore_same]
      have hcol : ∀ o : JObj, updStore st1 rd o = updStore st rd o := by
        intro o
        by_cases ht : isTruthy (getKey (st rd) name) <;>
          simp [hst1, ht, updStore_updStore]
      rw [foldl_mixPropStep_eq rs rd h name _ st1, hrs, hv, hrd]
      set d1 := if isTruthy (getKey (st rd) name) then st rd
        else setKey (st rd) name (.obj []) with hd1
      cases hP : copyProps (.obj fs) name d1 (fs.map Prod.fst) with
      | mk d2 e2 =>
        cases e2 with
        | none =>
          simp only [hcol]
          rw [ih (updStore st rd d2)]
          rw [updStore_ne _ rd rs _ h, updStore_same, updStore_updStore]
          simp [mixP, hv, ← hd1, hP]
        | some e =>
          simp only [hcol]
          rw [foldl_mixKeyStep_error]
          simp [mixP, hv, ← hd1, hP]
    | undefv =>
      have hstep : mixKeyStep rs rd (st, none) name =
          (updStore st rd (setKey (st rd) name .undefv), none) := by
        simp [mixKeyStep, hv]
      rw [hstep, ih]
      rw [updStore_ne _ rd rs _ h, updStore_same, updStore_updStore]
      simp [mixP, hv]
    | nullv =>
      have hstep : mixKeyStep rs rd (st, none) name =
          (updStore st rd (setKey (st rd) name .nullv), none) := by
        simp [mixKeyStep, hv]
      rw [hstep, ih]
      rw [updStore_ne _ rd rs _ h, updStore_same, updStore_updStore]
      simp [mixP, hv]
    | boolv b =>
      have hstep : mixKeyStep rs rd (st, none) name =
          (updStore st rd (setKey (st rd) name (.boolv b)), none) := by
        simp [mixKeyStep, hv]
      rw [hstep, ih]
      rw [updStore_ne _ rd rs _ h, updStore_same, updStore_updStore]
      simp [mixP, hv]
    | num n =>
      have hstep : mixKeyStep rs rd (st, none) name =
          (updStore st rd (setKey (st rd) name (.num n)), none) := by
        simp [mixKeyStep, hv]
      rw [hstep, ih]
      rw [updStore_ne _ rd rs _ h, updStore_same, updStore_updStore]
      simp [mixP, hv]
    | str s =>
      have hstep : mixKeyStep rs rd (st, none) name =
          (updStore st rd (setKey (st rd) name (.str s)), none) := by
        simp [mixKeyStep, hv]
      rw [hstep, ih]
      rw [updStore_ne _ rd rs _ h, updStore_same, updStore_updStore]
      simp [mixP, hv]

/-- On two distinct objects, `mix(src, dest)` is the pure recursion `mixP`
over the key snapshot of the source. -/
theorem mix2_eq_mixP (src dest : JObj) :
    mix2 src dest = mixP src dest (objKeys src) := by
  have h01 : (0 : Nat) ≠ 1 := by decide
  have hst0 : (fun n => if n = 0 then src else dest : Store) 0 = src := by simp
  have hst1 : (fun n => if n = 0 then src else dest : Store) 1 = dest := by simp
  simp only [mix2, foldl_mixKeyStep_eq 0 1 h01, mixRun, hst0, hst1, updStore_same]
  simp

/-! ## Per-key behavior of the pure merger -/

theorem setKey_setKey (d : JObj) (k : String) (v w : JVal) :
    setKey (setKey d k v) k w = setKey d k w := by
  induction d with
  | nil => simp [setKey]
  | cons kv rest ih =>
    obtain ⟨k1, v1⟩ := kv
    by_cases h : k1 = k <;> simp [setKey, h, ih]

theorem lookup_foldl_set (s : JVal) (keys : List String) (g : JObj) (k : String) :
    lookupKey (keys.foldl (fun g2 k2 => setKey g2 k2 (objGet s k2)) g) k =
      if k ∈ keys then some (objGet s k) else lookupKey g k := by
  induction keys generalizing g with
  | nil => simp
  | cons key rest ih =>
    rw [List.foldl_cons, ih]
    by_cases hmem : k ∈ rest
    · simp [hmem]
    · by_cases hk : k = key
      · subst hk
        simp [hmem, lookup_setKey_self]
      · simp [hmem, hk, lookup_setKey_ne _ _ _ _ hk]

theorem foldl_set_id (s : JVal) (keys : List String) (g : JObj)
    (h : ∀ kk ∈ keys, lookupKey g kk = some (objGet s kk)) :
    keys.foldl (fun g2 k2 => setKey g2 k2 (objGet s k2)) g = g := by
  induction keys with
  | nil => rfl
  | cons key rest ih =>
    rw [List.foldl_cons, setKey_self g key _ (h key (by simp))]
    exact ih fun kk hkk => h kk (by simp [hkk])

theorem copyOnto_lookup (fs : List (String × JVal)) (gs : JObj) (k : String) :
    lookupKey (copyOnto fs gs) k =
      if k ∈ fs.map Prod.fst then some (getKey fs k) else lookupKey gs k := by
  simpa [objGet] using lookup_foldl_set (.obj fs) (fs.map Prod.fst) gs k

theorem copyOnto_copyOnto (fs : List (String × JVal)) (gs : JObj) :
    copyOnto fs (copyOnto fs gs) = copyOnto fs gs := by
  refine foldl_set_id (.obj fs) (fs.map Prod.fst) (copyOnto fs gs) fun kk hkk => ?_
  simp [copyOnto_lookup, hkk, objGet]

theorem copyProps_lookup_ne (s : JVal) (name k2 : String) (h : k2 ≠ name)
    (keys : List String) (d : JObj) :
    lookupKey (copyProps s name d keys).1 k2 = lookupKey d k2 := by
  induction keys generalizing d with
  | nil => rfl
  | cons key rest ih =>
    cases hv : getKey d name with
    | obj gs =>
      simp only [copyProps, hv]
      rw [ih]
      exact lookup_setKey_ne _ _ _ _ h
    | arr xs => simpa [copyProps, hv] using ih d
    | undefv => simp [copyProps, hv]
    | nullv => simp [copyProps, hv]
    | boolv b => simp [copyProps, hv]
    | num n => simp [copyProps, hv]
    | str ss => simp [copyProps, hv]

theorem copyProps_obj (s : JVal) (name : String) (keys : List String)
    (d : JObj) (gs : JObj) (h : lookupKey d name = some (.obj gs)) :
    copyProps s name d keys =
      (setKey d name
        (.obj (keys.foldl (fun g2 k2 => setKey g2 k2 (objGet s k2)) gs)), none) := by
  induction keys generalizing d gs with
  | nil => simp [copyProps, setKey_self d name _ h]
  | cons key rest ih =>
    have hget : getKey d name = .obj gs := by simp [getKey, h]
    simp only [copyProps, hget, List.foldl_cons]
    rw [ih (setKey d name (.obj (setKey gs key (objGet s key))))
      (setKey gs key (objGet s key)) (lookup_setKey_self _ _ _)]
    rw [setKey_setKey]

theorem copyProps_arr (s : JVal) (name : String) (keys : List String)
    (d : JObj) (ys : List JVal) (h : getKey d name = .arr ys) :
    copyProps s name d keys = (d, none) := by
  induction keys with
  | nil => rfl
  | cons key rest ih => simpa [copyProps, h] using ih

theorem lookup_of_getKey (d : JObj) (k : String) (h : getKey d k ≠ .undefv) :
    lookupKey d k = some (getKey d k) := by
  cases hl : lookupKey d k with
  | none => exact absurd (by simp [getKey, hl]) h
  | some v => simp [getKey, hl]

theorem mixP_cons (src d : JObj) (k : String) (ks : List String) :
    mixP src d (k :: ks) =
      match mixP src d [k] with
      | (d2, none) => mixP src d2 ks
      | (d2, some e) => (d2, some e) := by
  cases hv : getKey src k with
  | arr xs => simp [mixP, hv]
  | obj fs =>
    simp only [mixP, hv]
    cases hP : copyProps (.obj fs) k
        (if isTruthy (getKey d k) then d else setKey d k (.obj []))
        (fs.map Prod.fst) with
    | mk d2 e2 => cases e2 <;> simp [mixP]
  | undefv => simp [mixP, hv]
  | nullv => simp [mixP, hv]
  | boolv b => simp [mixP, hv]
  | num n => simp [mixP, hv]
  | str s2 => simp [mixP, hv]

theorem mixP_lookup_ne (src : JObj) (name : String) (ks : List String)
    (d : JObj) (h : name ∉ ks) :
    lookupKey (mixP src d ks).1 name = lookupKey d name := by
  induction ks generalizing d with
  | nil => rfl
  | cons k rest ih =>
    have hk : name ≠ k := fun hh => h (hh ▸ List.mem_cons_self k rest)
    have hrest : name ∉ rest := fun hh => h (List.mem_cons_of_mem _ hh)
    cases hv : getKey src k with
    | arr xs =>
      simp only [mixP, hv]
      rw [ih _ hrest, lookup_setKey_ne _ _ _ _ hk]
    | obj fs =>
      simp only [mixP, hv]
      set d1 := if isTruthy (getKey d k) then d else setKey d k (.obj []) with hd1
      have hlook1 : lookupKey d1 name = lookupKey d name := by
        by_cases ht : isTruthy (getKey d k) <;>
          simp [hd1, ht, lookup_setKey_ne _ _ _ _ hk]
      cases hP : copyProps (.obj fs) k d1 (fs.map Prod.fst) with
      | mk d2 e2 =>
        have hlook2 : lookupKey d2 name = lookupKey d name := by
          have := copyProps_lookup_ne (.obj fs) k name hk (fs.map Prod.fst) d1
          rw [hP] at this
          exact this.trans hlook1
        cases e2 with
        | none => simpa using (ih d2 hrest).trans hlook2
        | some e => simpa using hlook2
    | undefv =>
      simp only [mixP, hv]
      rw [ih _ hrest, lookup_setKey_ne _ _ _ _ hk]
    | nullv =>
      simp only [mixP, hv]
      rw [ih _ hrest, lookup_setKey_ne _ _ _ _ hk]
    | boolv b =>
      simp only [mixP, hv]
      rw [ih _ hrest, lookup_setKey_ne _ _ _ _ hk]
    | num n =>
      simp only [mixP, hv]
      rw [ih _ hrest, lookup_setKey_ne _ _ _ _ hk]
    | str s2 =>
      simp only [mixP, hv]
      rw [ih _ hrest, lookup_setKey_ne _ _ _ _ hk]

theorem mixP_single_lookup (src d : JObj) (k : String)
    (hnone : (mixP src d [k]).2 = none) :
    lookupKey (mixP src d [k]).1 k =
      some (keyOutcome src (getKey d k) k) := by
  cases hv : getKey src k with
  | arr xs =>
    cases hdv : getKey d k <;>
      simp [mixP, hv, hdv, keyOutcome, lookup_setKey_self]
  | obj fs =>
    cases hdv : getKey d k with
    | obj gs =>
      have hl : lookupKey d k = some (.obj gs) := by
        have h2 := lookup_of_getKey d k (by simp [hdv])
        rwa [hdv] at h2
      have hcp := copyProps_obj (.obj fs) k (fs.map Prod.fst) d gs hl
      simp [mixP, hv, hdv, isTruthy, hcp, lookup_setKey_self, keyOutcome, copyOnto]
    | arr ys =>
      have hcp := copyProps_arr (.obj fs) k (fs.map Prod.fst) d ys hdv
      have hl : lookupKey d k = some (.arr ys) := by
        have h2 := lookup_of_getKey d k (by simp [hdv])
        rwa [hdv] at h2
      simp [mixP, hv, hdv, isTruthy, hcp, keyOutcome, hl]
    | undefv =>
      have hcp := copyProps_obj (.obj fs) k (fs.map Prod.fst)
        (setKey d k (.obj [])) [] (lookup_setKey_self _ _ _)
      simp [mixP, hv, hdv, isTruthy, hcp, setKey_setKey, lookup_setKey_self,
        keyOutcome, copyOnto]
    | nullv =>
      have hcp := copyProps_obj (.obj fs) k (fs.map Prod.fst)
        (setKey d k (.obj [])) [] (lookup_setKey_self _ _ _)
      simp [mixP, hv, hdv, isTruthy, hcp, setKey_setKey, lookup_setKey_self,
        keyOutcome, copyOnto]
    | boolv b =>
      cases b with
      | false =>
        have hcp := copyProps_obj (.obj fs) k (fs.map Prod.fst)
          (setKey d k (.obj [])) [] (lookup_setKey_self _ _ _)
        simp [mixP, hv, hdv, isTruthy, hcp, setKey_setKey, lookup_setKey_self,
          keyOutcome, copyOnto]
      | true =>
        cases hks : fs.map Prod.fst with
        | nil =>
          have hl : lookupKey d k = some (.boolv true) := by
            have h2 := lookup_of_getKey d k (by simp [hdv])
            rwa [hdv] at h2
          simp [mixP, hv, hdv, isTruthy, hks, copyProps, keyOutcome, hl]
        | cons key rest =>
          rw [mixP, hv] at hnone
          simp [hdv, isTruthy, hks, copyProps] at hnone
    | num n =>
      by_cases hn : n = 0
      · subst hn
        have hcp := copyProps_obj (.obj fs) k (fs.map Prod.fst)
          (setKey d k (.obj [])) [] (lookup_setKey_self _ _ _)
        simp [mixP, hv, hdv, isTruthy, hcp, setKey_setKey, lookup_setKey_self,
          keyOutcome, copyOnto]
      · cases hks : fs.map Prod.fst with
        | nil =>
          have hl : lookupKey d k = some (.num n) := by
            have h2 := lookup_of_getKey d k (by simp [hdv])
            rwa [hdv] at h2
          simp [mixP, hv, hdv, isTruthy, hn, hks, copyProps, keyOutcome, hl]
        | cons key rest =>
          rw [mixP, hv] at hnone
          simp [hdv, isTruthy, hn, hks, copyProps] at hnone
    | str s2 =>
      by_cases hs : s2 = ""
      · subst hs
        have hcp := copyProps_obj (.obj fs) k (fs.map Prod.fst)
          (setKey d k (.obj [])) [] (lookup_setKey_self _ _ _)
        simp [mixP, hv, hdv, isTruthy, hcp, setKey_setKey, lookup_setKey_self,
          keyOutcome, copyOnto]
      · cases hks : fs.map Prod.fst with
        | nil =>
          have hl : lookupKey d k = some (.str s2) := by
            have h2 := lookup_of_getKey d k (by simp [hdv])
            rwa [hdv] at h2
          simp [mixP, hv, hdv, isTruthy, hs, hks, copyProps, keyOutcome, hl]
        | cons key rest =>
          rw [mixP, hv] at hnone
          simp [hdv, isTruthy, hs, hks, copyProps] at hnone
  | undefv => simp [mixP, hv, keyOutcome, lookup_setKey_self]
  | nullv => simp [mixP, hv, keyOutcome, lookup_setKey_self]
  | boolv b => simp [mixP, hv, keyOutcome, lookup_setKey_self]
  | num n => simp [mixP, hv, keyOutcome, lookup_setKey_self]
  | str s2 => simp [mixP, hv, keyOutcome, lookup_setKey_self]

theorem keyOutcome_stable (src d : JObj) (k : String)
    (hnoarr : isArrV (getKey src k) = false)
    (hnone : (mixP src d [k]).2 = none) :
    StableAt src k (keyOutcome src (getKey d k) k) := by
  cases hv : getKey src k with
  | arr xs => simp [isArrV, hv] at hnoarr
  | obj fs =>
    unfold StableAt
    rw [hv]
    cases hdv : getKey d k with
    | obj gs =>
      have hko : keyOutcome src (JVal.obj gs) k = .obj (copyOnto fs gs) := by
        simp [keyOutcome, hv]
      rw [hko]
      exact Or.inl ⟨copyOnto fs gs, rfl, fun kk hkk => by
        simp [copyOnto_lookup, hkk, objGet]⟩
    | arr ys =>
      have hko : keyOutcome src (JVal.arr ys) k = .arr ys := by
        simp [keyOutcome, hv]
      rw [hko]
      exact Or.inr (Or.inl ⟨ys, rfl⟩)
    | undefv =>
      have hko : keyOutcome src JVal.undefv k = .obj (copyOnto fs []) := by
        simp [keyOutcome, hv, isTruthy]
      rw [hko]
      exact Or.inl ⟨copyOnto fs [], rfl, fun kk hkk => by
        simp [copyOnto_lookup, hkk, objGet]⟩
    | nullv =>
      have hko : keyOutcome src JVal.nullv k = .obj (copyOnto fs []) := by
        simp [keyOutcome, hv, isTruthy]
      rw [hko]
      exact Or.inl ⟨copyOnto fs [], rfl, fun kk hkk => by
        simp [copyOnto_lookup, hkk, objGet]⟩
    | boolv b =>
      cases b with
      | false =>
        have hko : keyOutcome src (JVal.boolv false) k = .obj (copyOnto fs []) := by
          simp [keyOutcome, hv, isTruthy]
        rw [hko]
        exact Or.inl ⟨copyOnto fs [], rfl, fun kk hkk => by
          simp [copyOnto_lookup, hkk, objGet]⟩
      | true =>
        cases hks : fs.map Prod.fst with
        | nil =>
          have hfs : fs = [] := List.map_eq_nil_iff.mp hks
          have hko : keyOutcome src (JVal.boolv true) k = .boolv true := by
            simp [keyOutcome, hv, isTruthy]
          rw [hko]
          exact Or.inr (Or.inr (by simp [isTruthy, isObjV, isArrV, hfs]))
        | cons key rest =>
          rw [mixP, hv] at hnone
          simp [hdv, isTruthy, hks, copyProps] at hnone
    | num n =>
      by_cases hn : n = 0
      · subst hn
        have hko : keyOutcome src (JVal.num 0) k = .obj (copyOnto fs []) := by
          simp [keyOutcome, hv, isTruthy]
        rw [hko]
        exact Or.inl ⟨copyOnto fs [], rfl, fun kk hkk => by
          simp [copyOnto_lookup, hkk, objGet]⟩
      · cases hks : fs.map Prod.fst with
        | nil =>
          have hfs : fs = [] := List.map_eq_nil_iff.mp hks
          have hko : keyOutcome src (JVal.num n) k = .num n := by
            simp [keyOutcome, hv, isTruthy, hn]
          rw [hko]
          exact Or.inr (Or.inr (by simp [isTruthy, isObjV, isArrV, hn, hfs]))
        | cons key rest =>
          rw [mixP, hv] at hnone
          simp [hdv, isTruthy, hn, hks, copyProps] at hnone
    | str s2 =>
      by_cases hs : s2 = ""
      · subst hs
        have hko : keyOutcome src (JVal.str "") k = .obj (copyOnto fs []) := by
          simp [keyOutcome, hv, isTruthy]
        rw [hko]
        exact Or.inl ⟨copyOnto fs [], rfl, fun kk hkk => by
          simp [copyOnto_lookup, hkk, objGet]⟩
      · cases hks : fs.map Prod.fst with
        | nil =>
          have hfs : fs = [] := List.map_eq_nil_iff.mp hks
          have hko : keyOutcome src (JVal.str s2) k = .str s2 := by
            simp [keyOutcome, hv, isTruthy, hs]
          rw [hko]
          exact Or.inr (Or.inr (by simp [isTruthy, isObjV, isArrV, hs, hfs]))
        | cons key rest =>
          rw [mixP, hv] at hnone
          simp [hdv, isTruthy, hs, hks, copyProps] at hnone
  | undefv =>
    unfold StableAt
    rw [hv]
    simp [keyOutcome, hv]
  | nullv =>
    unfold StableAt
    rw [hv]
    simp [keyOutcome, hv]
  | boolv b =>
    unfold StableAt
    rw [hv]
    simp [keyOutcome, hv]
  | num n =>
    unfold StableAt
    rw [hv]
    simp [keyOutcome, hv]
  | str s2 =>
    unfold StableAt
    rw [hv]
    simp [keyOutcome, hv]

theorem mixP_single_of_stable (src d1 : JObj) (k : String) (w : JVal)
    (hst : StableAt src k w) (hl : lookupKey d1 k = some w) :
    mixP src d1 [k] = (d1, none) := by
  have hget : getKey d1 k = w := by simp [getKey, hl]
  cases hv : getKey src k with
  | arr xs => simp [StableAt, hv] at hst
  | obj fs =>
    unfold StableAt at hst
    rw [hv] at hst
    rcases hst with ⟨hs, hw, hprop⟩ | ⟨ys, hw⟩ | ⟨htr, hnobj, hnarr, hfs⟩
    · subst hw
      have hcp := copyProps_obj (.obj fs) k (fs.map Prod.fst) d1 hs hl
      have hfold : (fs.map Prod.fst).foldl
          (fun g2 k2 => setKey g2 k2 (objGet (.obj fs) k2)) hs = hs :=
        foldl_set_id (.obj fs) (fs.map Prod.fst) hs hprop
      rw [hfold] at hcp
      have hset : setKey d1 k (JVal.obj hs) = d1 := setKey_self d1 k _ hl
      rw [hset] at hcp
      simp [mixP, hv, hget, isTruthy, hcp]
    · subst hw
      have hcp := copyProps_arr (.obj fs) k (fs.map Prod.fst) d1 ys hget
      simp [mixP, hv, hget, isTruthy, hcp]
    · subst hfs
      simp [mixP, hv, hget, htr, copyProps]
  | undefv =>
    unfold StableAt at hst
    rw [hv] at hst
    subst hst
    simp [mixP, hv, setKey_self d1 k _ hl]
  | nullv =>
    unfold StableAt at hst
    rw [hv] at hst
    subst hst
    simp [mixP, hv, setKey_self d1 k _ hl]
  | boolv b =>
    unfold StableAt at hst
    rw [hv] at hst
    subst hst
    simp [mixP, hv, setKey_self d1 k _ hl]
  | num n =>
    unfold StableAt at hst
    rw [hv] at hst
    subst hst
    simp [mixP, hv, setKey_self d1 k _ hl]
  | str s2 =>
    unfold StableAt at hst
    rw [hv] at hst
    subst hst
    simp [mixP, hv, setKey_self d1 k _ hl]

theorem mem_keys_of_lookup (d : JObj) (k : String) (v : JVal)
    (h : lookupKey d k = some v) : k ∈ objKeys d := by
  induction d with
  | nil => simp [lookupKey] at h
  | cons kv rest ih =>
    obtain ⟨k1, v1⟩ := kv
    by_cases h1 : k1 = k
    · simp [objKeys, h1]
    · simp only [lookupKey, if_neg h1] at h
      simpa [objKeys] using Or.inr (by simpa [objKeys] using ih h)

theorem lookup_pair_mem (d : JObj) (k : String) (v : JVal)
    (h : lookupKey d k = some v) : (k, v) ∈ d := by
  induction d with
  | nil => simp [lookupKey] at h
  | cons kv rest ih =>
    obtain ⟨k1, v1⟩ := kv
    by_cases h1 : k1 = k
    · subst h1
      simp [lookupKey] at h
      simp [h]
    · simp only [lookupKey, if_neg h1] at h
      exact List.mem_cons_of_mem _ (ih h)

theorem mixP_key_lookup (src : JObj) (name : String) (ks : List String) :
    ∀ d : JObj, ks.Nodup → name ∈ ks → (mixP src d ks).2 = none →
      lookupKey (mixP src d ks).1 name =
        some (keyOutcome src (getKey d name) name) := by
  induction ks with
  | nil =>
    intro d _ hmem _
    simp at hmem
  | cons k rest ih =>
    intro d hnd hmem hnone
    rw [mixP_cons] at hnone ⊢
    cases h1 : mixP src d [k] with
    | mk dk e1 =>
      cases e1 with
      | some e =>
        rw [h1] at hnone
        exact Option.noConfusion (hnone : (some e : Option String) = none)
      | none =>
        rw [h1] at hnone
        have hnone2 : (mixP src dk rest).2 = none := hnone
        by_cases hkn : k = name
        · subst hkn
          have hnr : k ∉ rest := (List.nodup_cons.mp hnd).1
          show lookupKey (mixP src dk rest).1 k = _
          rw [mixP_lookup_ne src k rest dk hnr]
          have hs := mixP_single_lookup src d k (by rw [h1])
          rw [h1] at hs
          exact hs
        · have hmem2 : name ∈ rest := by
            rcases List.mem_cons.mp hmem with h | h
            · exact absurd h.symm hkn
            · exact h
          have hnin : name ∉ [k] := by
            rw [List.mem_singleton]
            exact fun h => hkn h.symm
          have hlk := mixP_lookup_ne src name [k] d hnin
          rw [h1] at hlk
          have hget : getKey dk name = getKey d name := by
            simp only [getKey]
            rw [hlk]
          show lookupKey (mixP src dk rest).1 name = _
          rw [ih dk (List.nodup_cons.mp hnd).2 hmem2 hnone2, hget]

theorem mixP_idem (src : JObj) (ks : List String) :
    ∀ d d1 : JObj, ks.Nodup → (∀ k ∈ ks, isArrV (getKey src k) = false) →
      mixP src d ks = (d1, none) → mixP src d1 ks = (d1, none) := by
  induction ks with
  | nil =>
    intro d d1 _ _ h
    have hd : d = d1 := congrArg Prod.fst h
    subst hd
    exact h
  | cons k rest ih =>
    intro d d1 hnd hna h
    rw [mixP_cons] at h
    cases h1 : mixP src d [k] with
    | mk dk e1 =>
      cases e1 with
      | some e =>
        rw [h1] at h
        exact Option.noConfusion (congrArg Prod.snd h : (some e : Option String) = none)
      | none =>
        rw [h1] at h
        have hrest : mixP src dk rest = (d1, none) := h
        have hne : (mixP src d [k]).2 = none := by rw [h1]
        have hstable := keyOutcome_stable src d k (hna k (by simp)) hne
        have hlookdk : lookupKey dk k = some (keyOutcome src (getKey d k) k) := by
          have hs := mixP_single_lookup src d k hne
          rw [h1] at hs
          exact hs
        have hnr : k ∉ rest := (List.nodup_cons.mp hnd).1
        have hpres := mixP_lookup_ne src k rest dk hnr
        rw [hrest] at hpres
        have hlookd1 : lookupKey d1 k = some (keyOutcome src (getKey d k) k) :=
          hpres.trans hlookdk
        have hsingle := mixP_single_of_stable src d1 k _ hstable hlookd1
        rw [mixP_cons, hsingle]
        exact ih dk d1 (List.nodup_cons.mp hnd).2
          (fun k2 hk2 => hna k2 (List.mem_cons_of_mem _ hk2)) hrest

/-! ## The combination resolver: iteration order and membership -/

theorem foldl_append_eq_flatMap {α β : Type} (f : α → List β)
    (step : List β → α → List β) (hstep : ∀ acc x, step acc x = acc ++ f x) :
    ∀ (l : List α) (acc : List β), l.foldl step acc = acc ++ l.flatMap f := by
  intro l
  induction l with
  | nil => intro acc; simp
  | cons x rest ih =>
    intro acc
    rw [List.foldl_cons, hstep, ih, List.flatMap_cons, List.append_assoc]

theorem mem_ite_nil {γ : Type} (p : Prop) [Decidable p] (l : List γ) (c : γ) :
    (c ∈ if p then l else []) ↔ p ∧ c ∈ l := by
  by_cases h : p <;> simp [h]

theorem findCombos_eq_ordered (devices : List Device) (certs : List Cert)
    (profiles : List Profile) :
    findCombos devices certs profiles = findCombosOrdered devices certs profiles := by
  have l4 : ∀ (profile : Profile) (cert : Cert) (device : Device)
      (acc : List (List (String × String))),
      profile.certs.foldl
        (fun combos pcert =>
          if strStartsWith pcert (pemPfx60 cert) then combos ++ [mkCombo profile cert device]
          else combos) acc
        = acc ++ profile.certs.flatMap
            (fun pcert =>
              if strStartsWith pcert (pemPfx60 cert) then [mkCombo profile cert device]
              else []) := by
    intro profile cert device acc
    refine foldl_append_eq_flatMap _ _ (fun acc2 pcert => ?_) _ acc
    by_cases h : strStartsWith pcert (pemPfx60 cert) <;> simp [h]
  have l3 : ∀ (profile : Profile) (device : Device)
      (acc : List (List (String × String))),
      certs.foldl
        (fun combos cert =>
          profile.certs.foldl
            (fun combos2 pcert =>
              if strStartsWith pcert (pemPfx60 cert) then combos2 ++ [mkCombo profile cert device]
              else combos2) combos) acc
        = acc ++ certs.flatMap
            (fun cert =>
              profile.certs.flatMap
                (fun pcert =>
                  if strStartsWith pcert (pemPfx60 cert) then [mkCombo profile cert device]
                  else [])) := by
    intro profile device acc
    exact foldl_append_eq_flatMap _ _ (fun acc2 cert => l4 profile cert device acc2) _ acc
  have l2 : ∀ (profile : Profile) (acc : List (List (String × String))),
      devices.foldl
        (fun combos device =>
          if authorized profile device then
            certs.foldl
              (fun combos2 cert =>
                profile.certs.foldl
                  (fun combos3 pcert =>
                    if strStartsWith pcert (pemPfx60 cert) then
                      combos3 ++ [mkCombo profile cert device]
                    else combos3) combos2) combos
          else combos) acc
        = acc ++ devices.flatMap
            (fun device =>
              if authorized profile device then
                certs.flatMap
                  (fun cert =>
                    profile.certs.flatMap
                      (fun pcert =>
                        if strStartsWith pcert (pemPfx60 cert) then [mkCombo profile cert device]
                        else []))
              else []) := by
    intro profile acc
    refine foldl_append_eq_flatMap _ _ (fun acc2 device => ?_) _ acc
    by_cases h : authorized profile device
    · simp only [h, if_true]
      exact l3 profile device acc2
    · simp [h]
  refine (foldl_append_eq_flatMap _ _ (fun acc profile => l2 profile acc) profiles []).trans ?_
  simp [findCombosOrdered]

theorem mem_findCombos (devices : List Device) (certs : List Cert)
    (profiles : List Profile) (c : List (String × String)) :
    c ∈ findCombos devices certs profiles ↔
      ∃ p ∈ profiles, ∃ d ∈ devices, authorized p d = true ∧
        ∃ cert ∈ certs, ∃ pc ∈ p.certs,
          strStartsWith pc (pemPfx60 cert) = true ∧ c = mkCombo p cert d := by
  rw [findCombos_eq_ordered]
  simp only [findCombosOrdered, List.mem_flatMap, mem_ite_nil, List.mem_singleton]

theorem authorized_iff (p : Profile) (d : Device) :
    authorized p d = true ↔ ∃ ds, p.devices = some ds ∧ d.udid ∈ ds := by
  cases hd : p.devices <;> simp [authorized, hd]

/-! ## The orchestrator: error propagation and cache behavior -/

theorem detectPass_error_sticky (outcomes : List (Except String JObj))
    (racc : JObj) (e : String) (tacc : Bool) :
    (outcomes.foldl
      (fun acc oc =>
        match oc with
        | .error e2 => (acc.1, acc.2.1 <|> some e2, acc.2.2)
        | .ok r =>
          let p := mix2 r acc.1
          (p.1, acc.2.1, acc.2.2 || p.2.isSome))
      (racc, some e, tacc)).2.1 = some e := by
  induction outcomes generalizing racc tacc with
  | nil => rfl
  | cons oc rest ih =>
    cases oc with
    | error e2 => simpa using ih racc tacc
    | ok r => simpa using ih (mix2 r racc).1 (tacc || (mix2 r racc).2.isSome)

theorem detectPass_first_error (outcomes : List (Except String JObj))
    (hne : ∃ e, Except.error e ∈ outcomes) :
    ∀ (racc : JObj) (tacc : Bool),
      ∃ e0, (outcomes.foldl
        (fun acc oc =>
          match oc with
          | .error e2 => (acc.1, acc.2.1 <|> some e2, acc.2.2)
          | .ok r =>
            let p := mix2 r acc.1
            (p.1, acc.2.1, acc.2.2 || p.2.isSome))
        (racc, none, tacc)).2.1 = some e0 ∧ Except.error e0 ∈ outcomes := by
  induction outcomes with
  | nil => simp at hne
  | cons oc rest ih =>
    intro racc tacc
    cases oc with
    | error e2 =>
      refine ⟨e2, ?_, by simp⟩
      simpa using detectPass_error_sticky rest racc e2 tacc
    | ok r =>
      have hne2 : ∃ e, Except.error e ∈ rest := by
        obtain ⟨e, he⟩ := hne
        rcases List.mem_cons.mp he with h | h
        · exact absurd h (by simp)
        · exact ⟨e, h⟩
      obtain ⟨e0, h1, h2⟩ := ih hne2 (mix2 r racc).1 (tacc || (mix2 r racc).2.isSome)
      exact ⟨e0, by simpa using h1, List.mem_cons_of_mem _ h2⟩

theorem detectPass_no_error (outcomes : List (Except String JObj))
    (hne : ∀ e, Except.error e ∉ outcomes) :
    ∀ (racc : JObj) (tacc : Bool),
      ((outcomes.foldl
        (fun acc oc =>
          match oc with
          | .error e2 => (acc.1, acc.2.1 <|> some e2, acc.2.2)
          | .ok r =>
            let p := mix2 r acc.1
            (p.1, acc.2.1, acc.2.2 || p.2.isSome))
        (racc, none, tacc)).2.1 = none) := by
  induction outcomes with
  | nil => intro racc tacc; rfl
  | cons oc rest ih =>
    intro racc tacc
    cases oc with
    | error e2 => exact absurd (by simp : Except.error e2 ∈ Except.error e2 :: rest) (hne e2)
    | ok r =>
      have hne2 : ∀ e, Except.error e ∉ rest := fun e he =>
        hne e (List.mem_cons_of_mem _ he)
      simpa using ih hne2 (mix2 r racc).1 (tacc || (mix2 r racc).2.isSome)

theorem exists_lookup_of_mem_keys (d : JObj) (k : String) (h : k ∈ objKeys d) :
    ∃ v, lookupKey d k = some v := by
  induction d with
  | nil => simp [objKeys] at h
  | cons kv rest ih =>
    obtain ⟨k1, v1⟩ := kv
    by_cases h1 : k1 = k
    · exact ⟨v1, by simp [lookupKey, h1]⟩
    · have h2 : k ∈ objKeys rest := by
        simp only [objKeys, List.map_cons, List.mem_cons] at h
        rcases h with hh | hh
        · exact absurd hh.symm h1
        · simpa [objKeys] using hh
      obtain ⟨v, hv⟩ := ih h2
      exact ⟨v, by simp [lookupKey, h1, hv]⟩

/-! ## The claims -/

/-- C5: for every key of the source whose value is an array, the merger
concatenates the source array onto the destination's existing array for that
key when there is one, and otherwise replaces the destination value with the
source array; in particular merging `{a:[1,2]}` then `{a:[3]}` into an empty
destination yields `{a:[1,2,3]}`, and merging `{a:[3]}` into `{a:"x"}` yields
`{a:[3]}`. -/
theorem c5_merge_array_key (src dest : JObj) (name : String) (xs : List JVal)
    (hnd : (objKeys src).Nodup)
    (hv : getKey src name = .arr xs)
    (hok : (mix2 src dest).2 = none) :
    (getKey (mix2 src dest).1 name =
      (match getKey dest name with
       | .arr ys => JVal.arr (ys ++ xs)
       | _ => JVal.arr xs)) ∧
    (mix2 [("a", .arr [.num 3])] (mix2 [("a", .arr [.num 1, .num 2])] []).1).1
        = [("a", .arr [.num 1, .num 2, .num 3])] ∧
    (mix2 [("a", .arr [.num 3])] [("a", .str "x")]).1 = [("a", .arr [.num 3])] := by
  refine ⟨?_, rfl, rfl⟩
  have hmem : name ∈ objKeys src := by
    have hlk := lookup_of_getKey src name (by simp [hv])
    rw [hv] at hlk
    exact mem_keys_of_lookup src name _ hlk
  rw [mix2_eq_mixP] at hok ⊢
  have h := mixP_key_lookup src name (objKeys src) dest hnd hmem hok
  have hg : getKey (mixP src dest (objKeys src)).1 name =
      keyOutcome src (getKey dest name) name := by
    simp [getKey, h]
  rw [hg]
  cases hdv : getKey dest name <;> simp [keyOutcome, hv, hdv]

/-- Witness for C5 at `mix({a:[3]}, {a:"x"})`. -/
theorem c5_witness :
    getKey (mix2 [("a", JVal.arr [.num 3])] [("a", JVal.str "x")]).1 "a"
      = JVal.arr [.num 3] := by
  have h := (c5_merge_array_key [("a", JVal.arr [.num 3])] [("a", JVal.str "x")]
    "a" [.num 3] (by simp [objKeys]) rfl rfl).1
  simpa using h

/-- C6 as stated is false: for a source key holding an object, the merger only
creates an empty object when the destination value is falsy.  When the
destination holds the truthy non-object `"x"`, the destination is not given an
object at that key: the one-level property copy fails (a strict-mode
`TypeError`) and the value stays `"x"`. -/
theorem c6_counterexample :
    getKey (mix2 [("a", JVal.obj [("b", .num 1)])] [("a", JVal.str "x")]).1 "a"
        = JVal.str "x" ∧
    (mix2 [("a", JVal.obj [("b", .num 1)])] [("a", JVal.str "x")]).2
        = some "TypeError" ∧
    isObjV (getKey
      (mix2 [("a", JVal.obj [("b", .num 1)])] [("a", JVal.str "x")]).1 "a") = false :=
  ⟨rfl, rfl, rfl⟩

/-- C6 amended: for every key of the source whose value is a non-null,
non-array object, when the destination value at that key is falsy the merger
installs a fresh object holding exactly the source fields, and when it is an
object the merger copies every source field into it one level deep with
last-writer-wins (values carried over verbatim, not deep-merged); when the
destination value is a truthy non-object the copy is not performed (the merge
raises a `TypeError` instead).  For every key whose value is a scalar, null,
or undefined, the merger overwrites the destination value unconditionally. -/
theorem c6_merge_object_key (src dest : JObj) (name : String)
    (hnd : (objKeys src).Nodup)
    (hok : (mix2 src dest).2 = none) :
    (∀ fs, getKey src name = .obj fs → isTruthy (getKey dest name) = false →
      getKey (mix2 src dest).1 name = .obj (copyOnto fs []) ∧
      ∀ k, lookupKey (copyOnto fs []) k =
        if k ∈ objKeys fs then some (getKey fs k) else none) ∧
    (∀ fs gs, getKey src name = .obj fs → getKey dest name = .obj gs →
      getKey (mix2 src dest).1 name = .obj (copyOnto fs gs) ∧
      ∀ k, lookupKey (copyOnto fs gs) k =
        if k ∈ objKeys fs then some (getKey fs k) else lookupKey gs k) ∧
    (∀ v : JVal, name ∈ objKeys src → getKey src name = v →
      isArrV v = false → isObjV v = false →
      getKey (mix2 src dest).1 name = v) := by
  rw [mix2_eq_mixP] at hok ⊢
  have base : ∀ hmem : name ∈ objKeys src,
      getKey (mixP src dest (objKeys src)).1 name =
        keyOutcome src (getKey dest name) name := by
    intro hmem
    have h := mixP_key_lookup src name (objKeys src) dest hnd hmem hok
    simp [getKey, h]
  refine ⟨?_, ?_, ?_⟩
  · intro fs hv hfalsy
    have hmem : name ∈ objKeys src := by
      have hlk := lookup_of_getKey src name (by simp [hv])
      rw [hv] at hlk
      exact mem_keys_of_lookup src name _ hlk
    refine ⟨?_, fun k => by simp [copyOnto_lookup, objKeys, objGet, lookupKey]⟩
    rw [base hmem]
    cases hdv : getKey dest name <;>
      simp_all [keyOutcome, hv, isTruthy]
  · intro fs gs hv hdv
    have hmem : name ∈ objKeys src := by
      have hlk := lookup_of_getKey src name (by simp [hv])
      rw [hv] at hlk
      exact mem_keys_of_lookup src name _ hlk
    refine ⟨?_, fun k => by simp [copyOnto_lookup, objKeys, objGet]⟩
    rw [base hmem]
    simp [keyOutcome, hv, hdv]
  · intro v hmem hv hnarr hnobj
    rw [base hmem]
    cases hvv : v <;> simp_all [keyOutcome, isArrV, isObjV]

/-- Witness for C6 amended at `mix({a:{b:1}}, {a:0})`. -/
theorem c6_witness :
    getKey (mix2 [("a", JVal.obj [("b", .num 1)])] [("a", JVal.num 0)]).1 "a"
      = JVal.obj [("b", .num 1)] := by
  have h := ((c6_merge_object_key [("a", JVal.obj [("b", .num 1)])]
    [("a", JVal.num 0)] "a" (by simp [objKeys]) rfl).1 [("b", .num 1)] rfl
    (by simp [getKey, lookupKey, isTruthy])).1
  rw [h]
  rfl

/-- C7: the merger is idempotent for sources with no top-level array value:
merging the same such source a second time leaves the destination exactly as
after the first (error-free) merge.  (Array values are the stated exception:
re-merging concatenates again.) -/
theorem c7_merge_idempotent (src dest : JObj)
    (hnd : (objKeys src).Nodup)
    (hna : ∀ kv ∈ src, isArrV kv.2 = false)
    (hok : (mix2 src dest).2 = none) :
    mix2 src (mix2 src dest).1 = mix2 src dest := by
  rw [mix2_eq_mixP] at hok ⊢
  rw [mix2_eq_mixP]
  have harr : ∀ k ∈ objKeys src, isArrV (getKey src k) = false := by
    intro k hk
    obtain ⟨v, hvl⟩ := exists_lookup_of_mem_keys src k hk
    have hpm : (k, v) ∈ src := lookup_pair_mem src k v hvl
    have hnav := hna (k, v) hpm
    simp [getKey, hvl, hnav]
  have hfull : mixP src dest (objKeys src) =
      ((mixP src dest (objKeys src)).1, none) := by
    rw [← hok]
  have happ := mixP_idem src (objKeys src) dest
    (mixP src dest (objKeys src)).1 hnd harr hfull
  rw [happ, ← hfull]

/-- Witness for C7 at `mix({a:1, b:{c:2}}, {})` applied twice. -/
theorem c7_witness :
    mix2 [("a", JVal.num 1), ("b", JVal.obj [("c", .num 2)])]
        (mix2 [("a", JVal.num 1), ("b", JVal.obj [("c", .num 2)])] []).1
      = mix2 [("a", JVal.num 1), ("b", JVal.obj [("c", .num 2)])] [] :=
  c7_merge_idempotent [("a", JVal.num 1), ("b", JVal.obj [("c", .num 2)])] []
    (by simp [objKeys]) (by simp [isArrV]) rfl

/-- C9 as stated is false for the aliased call `mix(x, x)`: with
`x = {a:[1]}` the source itself is mutated to `{a:[1,1]}` (its array is
concatenated onto itself), so the source does not keep its previous value. -/
theorem c9_counterexample :
    (mixRun 0 0 (fun n => if n = 0 then [("a", JVal.arr [.num 1])] else [])).1 0
        = [("a", JVal.arr [.num 1, .num 1])] ∧
    [("a", JVal.arr [.num 1, .num 1])] ≠ ([("a", JVal.arr [.num 1])] : JObj) :=
  ⟨rfl, by simp⟩

/-- C9 amended: when source and destination are distinct objects,
`mix(src, dest)` leaves the source object exactly as it was (it writes only
the destination object; every other object of the store is untouched). -/
theorem c9_source_unmodified (rs rd : Nat) (st : Store) (h : rs ≠ rd) :
    (mixRun rs rd st).1 rs = st rs :=
  mixRun_fst rs rd st rs h

/-- Witness for C9 amended at `mix({a:1}, {})` on distinct objects. -/
theorem c9_witness :
    (mixRun 0 1 (fun n => if n = 0 then [("a", JVal.num 1)] else [])).1 0
      = [("a", JVal.num 1)] := by
  have h := c9_source_unmodified 0 1
    (fun n => if n = 0 then [("a", JVal.num 1)] else []) (by decide)
  simpa using h

set_option maxRecDepth 8000 in
/-- C1 as stated is false on the combo shape: on a fully matching input the
resolver emits the combo with property key `ppUUID`, not `profileUUID` — no
emitted combo carries a `profileUUID` key. -/
theorem c1_counterexample :
    findValidDeviceCertProfileCombos [⟨"D1"⟩]
        [("login", [("developer", [⟨"Dev1", "MIIBbody"⟩])])]
        [⟨"P1", some ["D1"], ["MIIBbodyXYZ"]⟩]
      = .ok [[("ppUUID", "P1"), ("certName", "Dev1"), ("deviceUDID", "D1")]] ∧
    "profileUUID" ∉
      ([("ppUUID", "P1"), ("certName", "Dev1"), ("deviceUDID", "D1")].map
        (Prod.fst : String × String → String)) :=
  ⟨rfl, by decide⟩

/-- C1 amended: with a non-empty device list, a non-empty flattened
certificate set and a non-empty profile list, the resolver succeeds, and a
combo `{ ppUUID: u, certName: n, deviceUDID: du }` (the emitted key is
`ppUUID`, not `profileUUID`) appears in the output iff some profile, device
and certificate exist with those uuid, name and udid such that the device's
udid occurs in the profile's devices list and some fingerprint in the
profile's certs list starts with the first 60 characters of the certificate's
pem body after stripping the certificate header line. -/
theorem c1_combos_iff (devices : List Device)
    (keychains : List (String × List (String × List Cert)))
    (profiles : List Profile)
    (hdev : devices ≠ [])
    (hcert : flattenCerts keychains ≠ [])
    (hprof : profiles ≠ []) :
    findValidDeviceCertProfileCombos devices keychains profiles
        = .ok (findCombos devices (flattenCerts keychains) profiles) ∧
    ∀ u n du,
      ([("ppUUID", u), ("certName", n), ("deviceUDID", du)]
          ∈ findCombos devices (flattenCerts keychains) profiles ↔
        ∃ p ∈ profiles, ∃ d ∈ devices, ∃ c ∈ flattenCerts keychains,
          p.uuid = u ∧ c.name = n ∧ d.udid = du ∧
          (∃ ds, p.devices = some ds ∧ d.udid ∈ ds) ∧
          ∃ pc ∈ p.certs, strStartsWith pc (pemPfx60 c) = true) := by
  constructor
  · simp [findValidDeviceCertProfileCombos, List.length_eq_zero, hdev, hcert, hprof]
  · intro u n du
    rw [mem_findCombos]
    constructor
    · rintro ⟨p, hp, d, hd, hauth, c, hc, pc, hpc, hsw, hceq⟩
      obtain ⟨hu, hn, hdu⟩ : u = p.uuid ∧ n = c.name ∧ du = d.udid := by
        simpa [mkCombo] using hceq
      exact ⟨p, hp, d, hd, c, hc, hu.symm, hn.symm, hdu.symm,
        (authorized_iff p d).mp hauth, pc, hpc, hsw⟩
    · rintro ⟨p, hp, d, hd, c, hc, hu, hn, hdu, hds, pc, hpc, hsw⟩
      exact ⟨p, hp, d, hd, (authorized_iff p d).mpr hds, c, hc, pc, hpc, hsw,
        by simp [mkCombo, hu, hn, hdu]⟩

set_option maxRecDepth 8000 in
/-- Witness for C1 amended on the one-device, one-cert, one-profile input. -/
theorem c1_witness :
    findValidDeviceCertProfileCombos [⟨"D1"⟩]
        [("login", [("developer", [⟨"Dev1", "MIIBbody"⟩])])]
        [⟨"P1", some ["D1"], ["MIIBbodyXYZ"]⟩]
      = .ok (findCombos [⟨"D1"⟩]
          (flattenCerts [("login", [("developer", [⟨"Dev1", "MIIBbody"⟩])])])
          [⟨"P1", some ["D1"], ["MIIBbodyXYZ"]⟩]) :=
  (c1_combos_iff _ _ _ (by decide) (by decide) (by decide)).1

/-- C3: the resolver fails with the `No iOS devices connected` error when the
detected device list is empty; with the `No iOS certificates` error when the
devices are there but the certificate set flattened over every keychain and
type is empty; and with the `No provisioning profiles found` error when
devices and certificates are there but no profile matched.  Each failure is
an `Except.error`, produced before any matching, carrying no combo. -/
theorem c3_resolver_preconditions (devices : List Device)
    (keychains : List (String × List (String × List Cert)))
    (profiles : List Profile) :
    (devices = [] →
      findValidDeviceCertProfileCombos devices keychains profiles
        = .error "No iOS devices connected") ∧
    (devices ≠ [] → flattenCerts keychains = [] →
      findValidDeviceCertProfileCombos devices keychains profiles
        = .error "No iOS certificates") ∧
    (devices ≠ [] → flattenCerts keychains ≠ [] → profiles = [] →
      findValidDeviceCertProfileCombos devices keychains profiles
        = .error "No provisioning profiles found") := by
  refine ⟨fun h => ?_, fun h1 h2 => ?_, fun h1 h2 h3 => ?_⟩ <;>
    simp [findValidDeviceCertProfileCombos, List.length_eq_zero, *]

/-- Witness for C3: devices and certificates present, no profile. -/
theorem c3_witness :
    findValidDeviceCertProfileCombos [⟨"D1"⟩]
        [("login", [("developer", [⟨"Dev1", "MIIBbody"⟩])])] []
      = .error "No provisioning profiles found" :=
  (c3_resolver_preconditions _ _ _).2.2 (by decide) (by decide) rfl

set_option maxRecDepth 8000 in
/-- C8: the resolver emits combos in nested iteration order — profiles
outermost, then devices, then certificates, then the profile's embedded
fingerprints innermost — with no deduplication: a profile whose certs list
matches the same certificate twice yields the same combo twice. -/
theorem c8_emission_order (devices : List Device) (certs : List Cert)
    (profiles : List Profile) :
    findCombos devices certs profiles = findCombosOrdered devices certs profiles ∧
    findCombos [⟨"D1"⟩] [⟨"Dev1", "MIIBbody"⟩]
        [⟨"P1", some ["D1"], ["MIIBbodyXYZ", "MIIBbody"]⟩]
      = [[("ppUUID", "P1"), ("certName", "Dev1"), ("deviceUDID", "D1")],
         [("ppUUID", "P1"), ("certName", "Dev1"), ("deviceUDID", "D1")]] :=
  ⟨findCombos_eq_ordered devices certs profiles, rfl⟩

/-- C10: the entry-point normalization — a function first argument becomes the
callback with options reset to `{}`; a falsy options argument becomes `{}`; a
non-function callback is replaced by a no-op — and the normalized callback is
always a function, so the step completes on every argument shape. -/
theorem c10_normalize_args (o c : JsArg) :
    (o.isFunction = true → normalizeArgs o c = (.objv [], o)) ∧
    (o.isFunction = false → o.isFalsy = true →
      normalizeArgs o c = (.objv [], if c.isFunction then c else .noopFunc)) ∧
    (o.isFunction = false → o.isFalsy = false →
      normalizeArgs o c = (o, if c.isFunction then c else .noopFunc)) ∧
    (normalizeArgs o c).2.isFunction = true := by
  have case1 : o.isFunction = true → normalizeArgs o c = (.objv [], o) := fun h => by
    simp [normalizeArgs, h]
  have case2 : o.isFunction = false → o.isFalsy = true →
      normalizeArgs o c = (.objv [], if c.isFunction then c else .noopFunc) :=
    fun h1 h2 => by
      simp only [normalizeArgs, h1, h2]
      simp
  have case3 : o.isFunction = false → o.isFalsy = false →
      normalizeArgs o c = (o, if c.isFunction then c else .noopFunc) :=
    fun h1 h2 => by
      simp only [normalizeArgs, h1, h2]
      simp
  refine ⟨case1, case2, case3, ?_⟩
  cases ho : o.isFunction with
  | true =>
    rw [case1 ho]
    simpa using ho
  | false =>
    cases hf : o.isFalsy with
    | true =>
      rw [case2 ho hf]
      cases h3 : c.isFunction with
      | true => simp [h3]
      | false => simp [h3, JsArg.isFunction]
    | false =>
      rw [case3 ho hf]
      cases h3 : c.isFunction with
      | true => simp [h3]
      | false => simp [h3, JsArg.isFunction]

/-- Witness for C10: a function passed as the first argument. -/
theorem c10_witness : normalizeArgs (.func 5) .nullv = (.objv [], .func 5) :=
  (c10_normalize_args (.func 5) .nullv).1 rfl

/-- C2: whenever the orchestrator actually runs its detectors (no fresh cache
hit) and at least one detector calls back with an error, the whole call fails
with an error coming from a failing detector, no report is returned, and the
process-wide cache holds exactly the value it held before the call. -/
theorem c2_detect_error (cache : Option JObj) (bypass : Bool)
    (outcomes : List (Except String JObj))
    (hrun : cache = none ∨ bypass = true)
    (herr : ∃ e, Except.error e ∈ outcomes)
    (_hnothrow : (detectPass outcomes).2.2 = false) :
    (detect cache bypass outcomes).1 = cache ∧
    (∃ e0, (detect cache bypass outcomes).2.1 = .error e0 ∧
      Except.error e0 ∈ outcomes) ∧
    ∀ rep, (detect cache bypass outcomes).2.1 ≠ .ok rep := by
  obtain ⟨e0, h1, h2⟩ := detectPass_first_error outcomes herr
    [("detectVersion", .str "4.0"), ("issues", .arr [])] false
  have h1d : (detectPass outcomes).2.1 = some e0 := h1
  have hcase : detect cache bypass outcomes = (cache, .error e0, true) := by
    rcases cache with _ | c
    · simp [detect, h1d]
    · rcases hrun with hc | hb
      · exact absurd hc (by simp)
      · subst hb
        simp [detect, h1d]
  rw [hcase]
  exact ⟨rfl, ⟨e0, rfl, h2⟩, fun rep => by simp⟩

/-- Witness for C2: a single failing detector on an empty cache. -/
theorem c2_witness : (detect none false [Except.error "boom"]).1 = none :=
  (c2_detect_error none false [Except.error "boom"] (Or.inl rfl)
    ⟨"boom", by simp⟩ rfl).1

/-- C4: with a cached report and `bypassCache` unset, `detect` returns the
cached report without invoking any detector; a successful uncached pass
stores the assembled report in the cache and returns it, so a second call
without `bypassCache` returns the same report without invoking the detectors
again — the detectors run exactly once across the two calls. -/
theorem c4_detect_cache (outcomes outcomes2 : List (Except String JObj))
    (hok : ∀ e, Except.error e ∉ outcomes)
    (_hnothrow : (detectPass outcomes).2.2 = false) :
    (∀ (c : JObj) (oc : List (Except String JObj)),
      detect (some c) false oc = (some c, .ok c, false)) ∧
    (∃ rep, detect none false outcomes = (some rep, .ok rep, true) ∧
      detect (detect none false outcomes).1 false outcomes2
        = (some rep, .ok rep, false)) := by
  have hnone : (detectPass outcomes).2.1 = none :=
    detectPass_no_error outcomes hok
      [("detectVersion", .str "4.0"), ("issues", .arr [])] false
  have hfirst : detect none false outcomes
      = (some (detectPass outcomes).1, .ok (detectPass outcomes).1, true) := by
    simp [detect, hnone]
  refine ⟨fun c oc => rfl, (detectPass outcomes).1, hfirst, ?_⟩
  rw [hfirst]
  rfl

/-- Witness for C4: one successful detector, then a second call. -/
theorem c4_witness :
    detect (some [("x", JVal.num 1)]) false []
      = (some [("x", JVal.num 1)], .ok [("x", JVal.num 1)], false) :=
  (c4_detect_cache [Except.ok []] [] (by simp) rfl).1 [("x", JVal.num 1)] []

end Ioslib
